import Mathlib

/-!
Verification development for the `markdown-serve` path resolver
(`lib/resolver.js`).

The resolver maps a URL path string to a filesystem path.  We embed it
shallowly:

* a JS string is a `List Char`;
* a filesystem path is a `List Seg` of path segments (the absolute path
  `/a/b` is `[['a'], ['b']]`); `joinPath` renders it back to the string
  Node's `path.resolve` would return;
* the filesystem is a finite list of paths for which `fs.existsSync`
  returns `true`;
* `decodeURIComponent` (ECMA-262 `Decode`: percent-escapes forming UTF-8
  byte sequences, `URIError` on malformed input) is modelled by
  `decodeURIC`, returning `none` where JS throws;
* the resolver returns `Except Unit (Option FPath)`: `.error ()` models a
  thrown exception, `.ok none` the `null` (not-found) return.
-/

/-- One path segment (the text between two `/` of a path string). -/
abbrev Seg := List Char

/-- An absolute filesystem path, as the list of its segments. -/
abbrev FPath := List Seg

/-- The set of paths for which `fs.existsSync` returns true. -/
abbrev FS := List FPath

/-- `fs.existsSync(file)` of `resolver.js` line 55. -/
def fsEx (fs : FS) (p : FPath) : Bool := fs.contains p

/-- Value of a hexadecimal digit, `none` for a non-digit
(ECMA-262 `Decode`, step for `%XY` escapes). -/
def hexVal (c : Char) : Option Nat :=
  if '0' ≤ c ∧ c ≤ '9' then some (c.toNat - '0'.toNat)
  else if 'a' ≤ c ∧ c ≤ 'f' then some (c.toNat - 'a'.toNat + 10)
  else if 'A' ≤ c ∧ c ≤ 'F' then some (c.toNat - 'A'.toNat + 10)
  else none

/-- First pass of `decodeURIComponent`: each `%XY` escape becomes the byte
`Sum.inr (16*X+Y)`, every other character stays literal (`Sum.inl c`).
A `%` not followed by two hex digits is a `URIError` (`none`). -/
def tokenize : List Char → Option (List (Char ⊕ Nat))
  | [] => some []
  | '%' :: rest =>
    match rest with
    | c1 :: c2 :: r =>
      match hexVal c1, hexVal c2 with
      | some h1, some h2 => (tokenize r).map (fun ts => Sum.inr (16 * h1 + h2) :: ts)
      | _, _ => none
    | _ => none
  | c :: r => (tokenize r).map (fun ts => Sum.inl c :: ts)

/-- State of the UTF-8 decoding pass of `decodeURIComponent`:
`out` is the decoded text, `need` the number of continuation bytes still
expected, `acc` the partial code point, `lo` the smallest code point the
current sequence may legally encode (overlong rejection), `bad` records a
`URIError`. -/
structure DecSt where
  out : List Char
  need : Nat
  acc : Nat
  lo : Nat
  bad : Bool
deriving DecidableEq

/-- One step of UTF-8 decoding over the token list: literal characters are
copied (illegal inside a pending multi-byte sequence); an escaped byte is a
single-byte character, a lead byte, or a continuation byte.  Overlong
encodings, surrogate halves and code points above `0x10FFFF` are
`URIError`s, as in ECMA-262 `Decode`. -/
def decStep (st : DecSt) (t : Char ⊕ Nat) : DecSt :=
  if st.bad then st else
  match t with
  | Sum.inl c =>
    if st.need ≠ 0 then { st with bad := true }
    else { st with out := st.out ++ [c] }
  | Sum.inr b =>
    if st.need = 0 then
      if b < 0x80 then { st with out := st.out ++ [Char.ofNat b] }
      else if 0xC0 ≤ b ∧ b ≤ 0xDF then { st with need := 1, acc := b - 0xC0, lo := 0x80 }
      else if 0xE0 ≤ b ∧ b ≤ 0xEF then { st with need := 2, acc := b - 0xE0, lo := 0x800 }
      else if 0xF0 ≤ b ∧ b ≤ 0xF7 then { st with need := 3, acc := b - 0xF0, lo := 0x10000 }
      else { st with bad := true }
    else
      if 0x80 ≤ b ∧ b ≤ 0xBF then
        let a := st.acc * 64 + (b - 0x80)
        if st.need = 1 then
          if a < st.lo ∨ (0xD800 ≤ a ∧ a ≤ 0xDFFF) ∨ 0x10FFFF < a then { st with bad := true }
          else { st with need := 0, out := st.out ++ [Char.ofNat a] }
        else { st with need := st.need - 1, acc := a }
      else { st with bad := true }

/-- `decodeURIComponent(s)`: `none` models a thrown `URIError`. -/
def decodeURIC (l : List Char) : Option (List Char) :=
  match tokenize l with
  | none => none
  | some ts =>
    let st := ts.foldl decStep ⟨[], 0, 0, 0, false⟩
    if st.bad ∨ st.need ≠ 0 then none else some st.out

/-- One character of splitting a path string at `/`
(`String.prototype.split('/')`, and the component split Node's
`path.resolve` performs). -/
def splitStep (c : Char) (r : List Seg) : List Seg :=
  if c = '/' then [] :: r else (c :: r.headD []) :: r.tail

/-- Split a string at every `/` (JS `s.split('/')`): always nonempty,
empty pieces are kept. -/
def splitSlash (l : List Char) : List Seg :=
  l.foldr splitStep [[]]

/-- One path component of Node `path.resolve`'s normalization: empty and
`.` components are dropped, `..` pops the last segment (staying at the
filesystem root when there is nothing to pop). -/
def segStep (acc : FPath) (s : Seg) : FPath :=
  if s = [] ∨ s = ['.'] then acc
  else if s = ['.', '.'] then acc.dropLast
  else acc ++ [s]

/-- Node `path.resolve(base, rel)` for an already-absolute `base`: if
`rel` starts with `/` it is resolved from the filesystem root, otherwise
from `base`; the components of `rel` are then normalized one by one. -/
def resolvePath (base : FPath) (rel : List Char) : FPath :=
  (splitSlash rel).foldl segStep (if rel.headD ' ' = '/' then [] else base)

/-- Render a segment-list path back to the POSIX path string
`path.resolve` returns (`[]` is the filesystem root `"/"`). -/
def joinPath (u : FPath) : List Char :=
  match u with
  | [] => ['/']
  | _ => u.foldl (fun a s => a ++ '/' :: s) []

/-- The global replacement of `'-'` by `' '` (JS `s.replace` with the
all-dashes regex) of `resolver.js` lines 26 and 41. -/
def dedash (l : List Char) : List Char :=
  l.map (fun c => if c = '-' then ' ' else c)

/-- `urlPath.match(/\/$/)` of `resolver.js` line 18: the string ends in `/`. -/
def endsSlash (l : List Char) : Bool :=
  match l.getLast? with
  | some c => c = '/'
  | none => false

/-- Lines 18–19 of `resolver.js` (and spec §4.1 step 3): a trailing-slash
path gets the default page name appended. -/
def expandSlash (dpn : List Char) (p : List Char) : List Char :=
  if endsSlash p then p ++ dpn else p

/-- `u.match(/\.md$/)` of `resolver.js` line 47, generalized to the
configured extension: the rendered path string ends in `ext`. -/
def extGuard (ext : List Char) (u : FPath) : Bool :=
  ext.isSuffixOf (joinPath u)

/-- The body of the segment loop of `resolver.js` lines 37–44: try the
literal segment under the accumulated directory `u`, then its de-dashed
variant; if neither exists, keep `u` unchanged (the loop just continues). -/
def segLookup (fs : FS) (u : FPath) (s : Seg) : FPath :=
  let p := resolvePath u s
  if fsEx fs p then p
  else
    let q := resolvePath u (dedash s)
    if fsEx fs q then q else u

/-- The segment walk of `resolver.js` lines 30–45: fold `segLookup` over
the segments, appending `ext` (`'.md'` in the source) to the final one. -/
def walk (fs : FS) (ext : List Char) : FPath → List Seg → FPath
  | u, [] => u
  | u, [s] => segLookup fs u (s ++ ext)
  | u, s :: rest => walk fs ext (segLookup fs u s) rest

/-- `lib/resolver.js`, the exported `function(urlPath, rootDir)`.
`root` is the already-resolved root directory (line 7 re-resolves the
argument; we take the resolved value as input).  `.error ()` models the
`URIError` that `decodeURIComponent` at line 15 can throw; `.ok none`
models the `null` return. -/
def resolver (fs : FS) (root : FPath) (urlPath : List Char) : Except Unit (Option FPath) :=
  if urlPath = [] ∨ urlPath.headD ' ' ≠ '/' then .ok none
  else if urlPath = ['/'] then
    -- line 11: path.resolve(rootDir, 'index.md')
    let file := resolvePath root "index.md".data
    .ok (if fsEx fs file then some file else none)
  else
    match decodeURIC urlPath with
    | none => .error ()
    | some dec =>
      -- line 15: decodeURIComponent(urlPath).substring(1)
      let p1 := expandSlash "index".data dec.tail
      -- line 22: path.resolve(rootDir, urlPath + '.md')
      let direct := resolvePath root (p1 ++ ".md".data)
      if fsEx fs direct then .ok (some direct)
      else
        -- line 26: path.resolve(rootDir, urlPath.replace(/-/g, ' ') + '.md')
        let dashed := resolvePath root (dedash p1 ++ ".md".data)
        if fsEx fs dashed then .ok (some dashed)
        else
          -- lines 30–48: segment walk, then the final '.md' / existence guard
          let u := walk fs ".md".data root (splitSlash p1)
          .ok (if extGuard ".md".data u && fsEx fs u then some u else none)

/-- Modelled from the spec: the `resolverOptions` argument
(`defaultPageName`, `fileExtension`, `useExtensionInUrl`, spec §3) of the
options-taking resolver, which is exercised by the repository's tests and
`lib/server.js` but whose source is not present under `src/`
(`src/lib/resolver.js` is the earlier two-argument version). -/
structure ResolverOptions where
  defaultPageName : List Char := "index".data
  fileExtension : List Char := "md".data
  useExtensionInUrl : Bool := false
deriving DecidableEq

/-- Modelled from the spec: "extension is normalized to always include a
leading `.`" (spec §3, §4.1: "Extension value is normalized by prefixing
`.` if absent"). -/
def normExt (e : List Char) : List Char :=
  match e with
  | '.' :: _ => e
  | _ => '.' :: e

/-- Modelled from the spec: the options-taking resolver
`resolve(urlPath, rootDirectory, options?)` of spec §4.1, whose source is
not under `src/`.  Steps 1–8 in order: root case with the default page
name, decode and strip `/`, trailing-slash expansion, the
`useExtensionInUrl` escape hatch (treat the path literally, bypassing all
further rules), direct match, whole-path de-dash fallback, segment walk
with the configured extension, else not-found. -/
def resolverOpts (fs : FS) (root : FPath) (opts : ResolverOptions) (urlPath : List Char) :
    Except Unit (Option FPath) :=
  let ext := normExt opts.fileExtension
  if urlPath = [] ∨ urlPath.headD ' ' ≠ '/' then .ok none
  else if urlPath = ['/'] then
    let file := resolvePath root (opts.defaultPageName ++ ext)
    .ok (if fsEx fs file then some file else none)
  else
    match decodeURIC urlPath with
    | none => .error ()
    | some dec =>
      let p1 := expandSlash opts.defaultPageName dec.tail
      if opts.useExtensionInUrl && ext.isSuffixOf p1 then
        let f := resolvePath root p1
        .ok (if fsEx fs f then some f else none)
      else
        let direct := resolvePath root (p1 ++ ext)
        if fsEx fs direct then .ok (some direct)
        else
          let dashed := resolvePath root (dedash p1 ++ ext)
          if fsEx fs dashed then .ok (some dashed)
          else
            let u := walk fs ext root (splitSlash p1)
            .ok (if extGuard ext u && fsEx fs u then some u else none)

/-- Decidable equality of resolver results, so concrete runs can be
checked by `decide`. -/
instance : DecidableEq (Except Unit (Option FPath))
  | .ok x, .ok y =>
    match decEq x y with
    | isTrue h => isTrue (h ▸ rfl)
    | isFalse h => isFalse (fun hh => h (Except.ok.inj hh))
  | .error e, .error f =>
    match decEq e f with
    | isTrue h => isTrue (h ▸ rfl)
    | isFalse h => isFalse (fun hh => h (Except.error.inj hh))
  | .ok _, .error _ => isFalse (fun hh => Except.noConfusion hh)
  | .error _, .ok _ => isFalse (fun hh => Except.noConfusion hh)

/-- C1: the spec's invariant says a non-null result always lies within
`rootDirectory`.  The code violates this: for `urlPath = "/../secret"`
with root `/r`, the resolver returns `/secret.md`, which exists but is
not below the root (`/r` is not a prefix of its segment list).  The
existence half of the invariant does hold at this input. -/
theorem c1_traversal_escape :
    resolver [[], ["secret.md".data], [['r']]] [['r']] "/../secret".data
      = .ok (some ["secret".data ++ ".md".data])
    ∧ List.isPrefixOf [['r']] ["secret".data ++ ".md".data] = false
    ∧ fsEx [[], ["secret.md".data], [['r']]] ["secret".data ++ ".md".data] = true := by
  refine ⟨by decide, by decide, by decide⟩

/-- C5: with `fileExtension := "markdown"`, `/new` resolves to
`new.markdown` when that is the only file present (and default options
find nothing); the extension is normalized by prefixing `.` if absent. -/
theorem c5_file_extension_option :
    resolverOpts [[], [['r']], [['r'], "new.markdown".data]] [['r']]
        { fileExtension := "markdown".data } "/new".data
      = .ok (some [['r'], "new.markdown".data])
    ∧ resolverOpts [[], [['r']], [['r'], "new.markdown".data]] [['r']] {} "/new".data
      = .ok none
    ∧ normExt "markdown".data = ".markdown".data
    ∧ normExt ".markdown".data = ".markdown".data := by
  refine ⟨by decide, by decide, by decide, by decide⟩

/-- C6: with `defaultPageName := "custom"`, `/sub/` resolves to
`sub/custom.md`; with a root whose `sub/` holds only `default.md`,
`/sub/` resolves to `sub/default.md` under `defaultPageName := "default"`
and to not-found under default options. -/
theorem c6_default_page_name :
    resolverOpts [[], [['r']], [['r'], "sub".data], [['r'], "sub".data, "custom.md".data]]
        [['r']] { defaultPageName := "custom".data } "/sub/".data
      = .ok (some [['r'], "sub".data, "custom.md".data])
    ∧ resolverOpts [[], [['r']], [['r'], "sub".data], [['r'], "sub".data, "default.md".data]]
        [['r']] { defaultPageName := "default".data } "/sub/".data
      = .ok (some [['r'], "sub".data, "default.md".data])
    ∧ resolverOpts [[], [['r']], [['r'], "sub".data], [['r'], "sub".data, "default.md".data]]
        [['r']] {} "/sub/".data
      = .ok none := by
  refine ⟨by decide, by decide, by decide⟩

/-- C8, counterexample: the claim says no input makes resolve throw, but
`urlPath = "/%"` reaches `decodeURIComponent`, which throws `URIError`
on the malformed escape (modelled as `.error ()`). -/
theorem c8_counterexample :
    resolver [] [] "/%".data = .error () := by decide

/-- C9: with `a b.md` present, the percent-encoded `/a%20b`, the decoded
literal `/a b` and the slugified `/a-b` all resolve to the same file. -/
theorem c9_percent_equiv :
    resolver [[], [['r']], [['r'], "a b.md".data]] [['r']] "/a%20b".data
      = .ok (some [['r'], "a b.md".data])
    ∧ resolver [[], [['r']], [['r'], "a b.md".data]] [['r']] "/a b".data
      = .ok (some [['r'], "a b.md".data])
    ∧ resolver [[], [['r']], [['r'], "a b.md".data]] [['r']] "/a-b".data
      = .ok (some [['r'], "a b.md".data]) := by
  refine ⟨by decide, by decide, by decide⟩

/-- C7: for `urlPath = "/"` the resolver looks only for
`<root>/<defaultPageName><ext>` (`index.md` in the two-argument source
version) and returns it iff it exists, with no further fallback — for
every filesystem and root. -/
theorem c7_root_case :
    (∀ (fs : FS) (root : FPath),
        resolver fs root "/".data =
          .ok (if fsEx fs (resolvePath root "index.md".data)
               then some (resolvePath root "index.md".data) else none))
    ∧
    (∀ (fs : FS) (root : FPath) (opts : ResolverOptions),
        resolverOpts fs root opts "/".data =
          .ok (if fsEx fs (resolvePath root (opts.defaultPageName ++ normExt opts.fileExtension))
               then some (resolvePath root (opts.defaultPageName ++ normExt opts.fileExtension))
               else none)) := by
  exact ⟨fun fs root => rfl, fun fs root opts => rfl⟩

/-- C2: in the segment walk, a segment matching neither the literal name
nor the dash-to-space variant leaves the accumulated directory unchanged
(the loop silently continues); and once the whole-path match and its
de-dashed variant have failed, the resolver returns the walk's
accumulated path exactly when it ends in the configured extension and
exists on disk, else not-found. -/
theorem c2_walk_silent_continue :
    (∀ (fs : FS) (u : FPath) (s : Seg),
        fsEx fs (resolvePath u s) = false →
        fsEx fs (resolvePath u (dedash s)) = false →
        segLookup fs u s = u)
    ∧
    (∀ (fs : FS) (root : FPath) (url dec : List Char),
        url.headD ' ' = '/' → url ≠ ['/'] →
        decodeURIC url = some dec →
        fsEx fs (resolvePath root (expandSlash "index".data dec.tail ++ ".md".data)) = false →
        fsEx fs (resolvePath root (dedash (expandSlash "index".data dec.tail) ++ ".md".data))
          = false →
        resolver fs root url =
          .ok (if extGuard ".md".data
                    (walk fs ".md".data root (splitSlash (expandSlash "index".data dec.tail)))
                  && fsEx fs
                    (walk fs ".md".data root (splitSlash (expandSlash "index".data dec.tail)))
               then some (walk fs ".md".data root (splitSlash (expandSlash "index".data dec.tail)))
               else none)) := by
  constructor
  · intro fs u s h1 h2
    simp only [segLookup, h1, h2, Bool.false_eq_true, if_false]
  · intro fs root url dec hh hne hdec hd hdash
    have hurl : ¬(url = [] ∨ url.headD ' ' ≠ '/') := by
      rintro (h | h)
      · subst h; simp at hh
      · exact h hh
    unfold resolver
    rw [if_neg hurl, if_neg hne, hdec]
    simp only [hd, hdash, Bool.false_eq_true, if_false]

/-- Witness for C2 at a concrete input: under root `/r` with no other
files, the lone segment `z` matches neither variant, and `/z` then
resolves to not-found by the final guard. -/
theorem c2_witness :
    segLookup [[], [['r']]] [['r']] ['z'] = [['r']]
    ∧ resolver [[], [['r']]] [['r']] "/z".data = .ok none := by
  constructor
  · exact c2_walk_silent_continue.1 [[], [['r']]] [['r']] ['z'] (by decide) (by decide)
  · have h := c2_walk_silent_continue.2 [[], [['r']]] [['r']] "/z".data "/z".data
      (by decide) (by decide) (by decide) (by decide) (by decide)
    rw [h]; decide

/-- C3: the literal name is tried before the dash-to-space variant at
every stage — in the walk a literal hit is taken, the whole-path literal
match short-circuits the resolver, and in particular `/with-dash`
resolves to `with-dash.md` even when `with dash.md` also exists. -/
theorem c3_literal_priority :
    (∀ (fs : FS) (u : FPath) (s : Seg),
        fsEx fs (resolvePath u s) = true → segLookup fs u s = resolvePath u s)
    ∧
    (∀ (fs : FS) (root : FPath) (url dec : List Char),
        url.headD ' ' = '/' → url ≠ ['/'] → decodeURIC url = some dec →
        fsEx fs (resolvePath root (expandSlash "index".data dec.tail ++ ".md".data)) = true →
        resolver fs root url =
          .ok (some (resolvePath root (expandSlash "index".data dec.tail ++ ".md".data))))
    ∧
    resolver [[], [['r']], [['r'], "with-dash.md".data], [['r'], "with dash.md".data]]
        [['r']] "/with-dash".data
      = .ok (some [['r'], "with-dash.md".data]) := by
  refine ⟨?_, ?_, by decide⟩
  · intro fs u s h1
    simp only [segLookup, h1, if_true]
  · intro fs root url dec hh hne hdec hd
    have hurl : ¬(url = [] ∨ url.headD ' ' ≠ '/') := by
      rintro (h | h)
      · subst h; simp at hh
      · exact h hh
    unfold resolver
    rw [if_neg hurl, if_neg hne, hdec]
    simp only [hd, if_true]

/-- Witness for C3 at a concrete input: a literal hit in the walk is
taken, and a literal whole-path hit is returned. -/
theorem c3_witness :
    segLookup [[], [['r'], "a.md".data]] [['r']] "a.md".data = [['r'], "a.md".data]
    ∧ resolver [[], [['r']], [['r'], "a.md".data]] [['r']] "/a".data
      = .ok (some [['r'], "a.md".data]) := by
  constructor
  · have h := c3_literal_priority.1 [[], [['r'], "a.md".data]] [['r']] "a.md".data (by decide)
    rw [h]; decide
  · have h := c3_literal_priority.2.1 [[], [['r']], [['r'], "a.md".data]] [['r']]
      "/a".data "/a".data (by decide) (by decide) (by decide) (by decide)
    rw [h]; decide

/-- C4: with `useExtensionInUrl` set and a (decoded, trailing-slash
expanded) path already ending in the configured extension, the resolver
treats the path literally and returns it iff it exists, bypassing every
later rule; in particular `/test-use-extension.md` resolves to the file
of that exact name. -/
theorem c4_use_extension_in_url :
    (∀ (fs : FS) (root : FPath) (opts : ResolverOptions) (url dec : List Char),
        url.headD ' ' = '/' → url ≠ ['/'] → decodeURIC url = some dec →
        opts.useExtensionInUrl = true →
        (normExt opts.fileExtension).isSuffixOf (expandSlash opts.defaultPageName dec.tail)
          = true →
        resolverOpts fs root opts url =
          .ok (if fsEx fs (resolvePath root (expandSlash opts.defaultPageName dec.tail))
               then some (resolvePath root (expandSlash opts.defaultPageName dec.tail))
               else none))
    ∧
    resolverOpts [[], [['r']], [['r'], "test-use-extension.md".data]] [['r']]
        { useExtensionInUrl := true } "/test-use-extension.md".data
      = .ok (some [['r'], "test-use-extension.md".data]) := by
  refine ⟨?_, by decide⟩
  intro fs root opts url dec hh hne hdec huse hsuf
  have hurl : ¬(url = [] ∨ url.headD ' ' ≠ '/') := by
    rintro (h | h)
    · subst h; simp at hh
    · exact h hh
  unfold resolverOpts
  rw [if_neg hurl, if_neg hne, hdec]
  simp only [huse, hsuf, Bool.and_self, if_true]

/-- Witness for C4 at a concrete input, the general escape-hatch part
applied to the `/test-use-extension.md` scenario. -/
theorem c4_witness :
    resolverOpts [[], [['r']], [['r'], "test-use-extension.md".data]] [['r']]
        { useExtensionInUrl := true } "/test-use-extension.md".data
      = .ok (some [['r'], "test-use-extension.md".data]) := by
  have h := c4_use_extension_in_url.1 [[], [['r']], [['r'], "test-use-extension.md".data]]
    [['r']] { useExtensionInUrl := true } "/test-use-extension.md".data
    "/test-use-extension.md".data (by decide) (by decide) (by decide) (by decide) (by decide)
  rw [h]; decide

/-- C8, amended: an empty urlPath or one without a leading slash yields
not-found as a normal value; the resolver signals an exception only when
`decodeURIComponent` throws on a malformed percent-escape, and not-found
is never signalled as an exception. -/
theorem c8_no_throw_amended :
    (∀ (fs : FS) (root : FPath) (url : List Char),
        url = [] ∨ url.headD ' ' ≠ '/' → resolver fs root url = .ok none)
    ∧
    (∀ (fs : FS) (root : FPath) (url : List Char) (e : Unit),
        resolver fs root url = .error e → decodeURIC url = none) := by
  constructor
  · intro fs root url h
    unfold resolver
    rw [if_pos h]
  · intro fs root url e h
    unfold resolver at h
    by_cases h1 : url = [] ∨ url.headD ' ' ≠ '/'
    · rw [if_pos h1] at h; exact absurd h (by simp)
    · rw [if_neg h1] at h
      by_cases h2 : url = ['/']
      · rw [if_pos h2] at h; exact absurd h (by simp)
      · rw [if_neg h2] at h
        cases hdec : decodeURIC url with
        | none => rfl
        | some dec =>
          rw [hdec] at h
          simp only [] at h
          split at h
          · exact absurd h (by simp)
          · split at h
            · exact absurd h (by simp)
            · exact absurd h (by simp)

/-- Witness for C8: the empty urlPath yields not-found as a value. -/
theorem c8_witness : resolver [] [] [] = .ok none :=
  c8_no_throw_amended.1 [] [] [] (Or.inl rfl)

/-- The `getLastD` of a nonempty list does not depend on the default. -/
theorem getLastD_of_ne_nil {α : Type} (l : List α) (h : l ≠ []) (d d' : α) :
    l.getLastD d = l.getLastD d' := by
  cases l with
  | nil => exact absurd rfl h
  | cons x xs => rw [List.getLastD_cons, List.getLastD_cons]

/-- Folding more characters into a split whose last piece ends in `.md`
keeps the split nonempty with a last piece still ending in `.md`. -/
theorem splitStep_foldr_last (s : List Char) (acc : List Seg) (h : acc ≠ [])
    (hmd : ".md".data <:+ acc.getLastD []) :
    s.foldr splitStep acc ≠ [] ∧ ".md".data <:+ (s.foldr splitStep acc).getLastD [] := by
  induction s with
  | nil => exact ⟨h, hmd⟩
  | cons c cs ih =>
    obtain ⟨h1, h2⟩ := ih
    rw [List.foldr_cons]
    generalize hr : cs.foldr splitStep acc = r at h1 h2
    unfold splitStep
    by_cases hc : c = '/'
    · rw [if_pos hc]
      refine ⟨by simp, ?_⟩
      rw [List.getLastD_cons]
      exact h2
    · rw [if_neg hc]
      cases r with
      | nil => exact absurd rfl h1
      | cons hd tl =>
        cases tl with
        | nil =>
          refine ⟨by simp, ?_⟩
          have hhd : ".md".data <:+ hd := by simpa using h2
          simpa using hhd.trans (List.suffix_cons c hd)
        | cons y ys =>
          refine ⟨by simp, ?_⟩
          simp only [List.headD, List.tail]
          rw [List.getLastD_cons, getLastD_of_ne_nil (y :: ys) (by simp) (c :: hd) hd]
          rw [List.getLastD_cons] at h2
          exact h2

/-- Splitting `s ++ ".md"` at slashes yields a nonempty piece list whose
last piece ends in `.md`. -/
theorem splitSlash_append_md (s : List Char) :
    splitSlash (s ++ ".md".data) ≠ []
    ∧ ".md".data <:+ (splitSlash (s ++ ".md".data)).getLastD [] := by
  unfold splitSlash
  rw [List.foldr_append]
  exact splitStep_foldr_last s (".md".data.foldr splitStep [[]]) (by decide)
    (List.isSuffixOf_iff_suffix.mp (by decide))

/-- Normalizing a component list whose final component is a plain name
(not empty, `.` or `..`) appends that name as the final segment. -/
theorem foldl_segStep_concat (ps : List Seg) (l : Seg) (st : FPath)
    (h0 : l ≠ []) (h1 : l ≠ ['.']) (h2 : l ≠ ['.', '.']) :
    (ps ++ [l]).foldl segStep st = ps.foldl segStep st ++ [l] := by
  rw [List.foldl_append]
  simp [List.foldl_cons, List.foldl_nil, segStep, h0, h1, h2]

/-- Rendering a path with a final segment exposes that segment at the end
of the string. -/
theorem joinPath_concat (x : List Seg) (l : Seg) :
    joinPath (x ++ [l]) = (x.foldl (fun a s => a ++ '/' :: s) []) ++ '/' :: l := by
  have : joinPath (x ++ [l]) = (x ++ [l]).foldl (fun a s => a ++ '/' :: s) [] := by
    cases x <;> rfl
  rw [this, List.foldl_append]
  simp

/-- Resolving a relative path that ends in `.md` produces a path whose
rendered string ends in `.md`. -/
theorem resolvePath_md_suffix (base : FPath) (s : List Char) :
    (".md".data).isSuffixOf (joinPath (resolvePath base (s ++ ".md".data))) = true := by
  obtain ⟨hne, hsuf⟩ := splitSlash_append_md s
  rw [List.isSuffixOf_iff_suffix]
  generalize hp : splitSlash (s ++ ".md".data) = pieces at hne hsuf
  have hlen : 3 ≤ (pieces.getLastD []).length := by
    have := hsuf.length_le
    simpa using this
  have h0 : pieces.getLastD [] ≠ [] := by
    intro h; rw [h] at hlen; simp at hlen
  have h1 : pieces.getLastD [] ≠ ['.'] := by
    intro h; rw [h] at hlen; simp at hlen
  have h2 : pieces.getLastD [] ≠ ['.', '.'] := by
    intro h; rw [h] at hlen; simp at hlen
  have hsplit : pieces.dropLast ++ [pieces.getLastD []] = pieces := by
    have hg : pieces.getLast hne = pieces.getLastD [] := by
      cases pieces with
      | nil => exact absurd rfl hne
      | cons x xs => rw [List.getLast_eq_getLastD, List.getLastD_cons]
    rw [← hg]
    exact List.dropLast_append_getLast hne
  unfold resolvePath
  rw [hp, ← hsplit, foldl_segStep_concat _ _ _ h0 h1 h2, joinPath_concat]
  exact (hsuf.trans (List.suffix_cons '/' _)).trans (List.suffix_append _ _)

/-- C10: whatever the filesystem, root and urlPath (extra arguments to the
source function are ignored by its two-parameter signature), a non-null
resolver result renders to a path string ending in `.md`. -/
theorem c10_result_ends_md :
    ∀ (fs : FS) (root : FPath) (url : List Char) (q : FPath),
      resolver fs root url = .ok (some q) →
      (".md".data).isSuffixOf (joinPath q) = true := by
  intro fs root url q h
  unfold resolver at h
  split at h
  · exact absurd h (by simp)
  · split at h
    · -- root case: the candidate is <root>/index.md
      rw [Except.ok.injEq] at h
      split at h
      · have hq : resolvePath root "index.md".data = q := Option.some.inj h
        rw [← hq]
        have hidx : "index.md".data = "index".data ++ ".md".data := by decide
        rw [hidx]
        exact resolvePath_md_suffix root "index".data
      · exact absurd h (by simp)
    · split at h
      · exact absurd h (by simp)
      · rename_i dec hdec
        simp only [] at h
        split at h
        · -- direct whole-path match
          have hq := Option.some.inj (Except.ok.inj h)
          rw [← hq]
          exact resolvePath_md_suffix root (expandSlash "index".data dec.tail)
        · split at h
          · -- de-dashed whole-path match
            have hq := Option.some.inj (Except.ok.inj h)
            rw [← hq]
            exact resolvePath_md_suffix root (dedash (expandSlash "index".data dec.tail))
          · -- segment walk: the final guard itself checks the suffix
            rw [Except.ok.injEq] at h
            split at h
            · next hcond =>
              have hq : walk fs ".md".data root
                  (splitSlash (expandSlash "index".data dec.tail)) = q :=
                Option.some.inj h
              rw [← hq]
              exact (Bool.and_eq_true_iff.mp hcond).1
            · exact absurd h (by simp)

/-- Witness for C10 at a concrete input: the result for `/a` under root
`/r` renders to a string ending in `.md`. -/
theorem c10_witness :
    (".md".data).isSuffixOf (joinPath [['r'], "a.md".data]) = true :=
  c10_result_ends_md [[], [['r']], [['r'], "a.md".data]] [['r']] "/a".data
    [['r'], "a.md".data] (by decide)

/-- Sanity check that the segment walk itself resolves mixed literal and
de-dashed segments, mirroring the repository test for
`/space-in-name/sub/with-dash`: under root `/r` with directory `a b` and
file `a b/with-dash.md`, the url `/a-b/with-dash` needs the walk (both
whole-path probes miss) and finds the file. -/
theorem resolver_walk_sanity :
    resolver [[], [['r']], [['r'], "a b".data], [['r'], "a b".data, "with-dash.md".data]]
        [['r']] "/a-b/with-dash".data
      = .ok (some [['r'], "a b".data, "with-dash.md".data]) := by decide
